import Mathlib

/-!
Verification of the streaming-metrics core (`metrics.py`): the weighted-mean
accumulator family (`NLL` / `BPD` / `Perplexity`, built on
`torchmetrics.aggregation.MeanMetric`), the per-sample entropy accumulator,
and the generative-perplexity pipeline (`record_generative_perplexity`):
batching, context-size chunking, EOS-aware validity masking, accumulation.

Modelling conventions:
* Machine floats are modelled by `XF`: an exact rational for every finite
  float, plus `nan`, `pinf` (+inf) and `ninf` (-inf), with IEEE-754
  addition/multiplication/division on those symbolic values.
* Tensors are flattened to lists; a 2-D `[rows, cols]` tensor is a list of
  rows.  `torch.split(t, ctx, dim=-1)` on a `[B, L]` tensor is the list of
  column-slices `t[:, j*ctx : (j+1)*ctx]`.
* The external reference model's forward pass together with the shifted
  cross-entropy (`F.cross_entropy(logits[..., :-1], chunk[..., 1:])`) is an
  opaque oracle `nllOf : chunk tokens → chunk attention mask → per-position
  losses`; nothing proved below depends on its values beyond finiteness and
  shape hypotheses stated explicitly.
* Real-valued transforms (`/ LOG2`, `exp`) are over `ℝ`.
-/

/-- Extended float value: exact finite rationals plus NaN and signed
infinities. -/
inductive XF where
  | fin : ℚ → XF
  | nan : XF
  | pinf : XF
  | ninf : XF
deriving DecidableEq

namespace XF

/-- Is this value NaN? -/
def isNan : XF → Bool
  | .nan => true
  | _ => false

/-- Is this value finite? -/
def isFin : XF → Bool
  | .fin _ => true
  | _ => false

/-- The rational value of a finite `XF` (0 on non-finite values; only used
under finiteness hypotheses). -/
def q : XF → ℚ
  | .fin x => x
  | _ => 0

/-- IEEE-754 addition on extended values. -/
def add : XF → XF → XF
  | .nan, _ => .nan
  | .fin _, .nan => .nan
  | .pinf, .nan => .nan
  | .ninf, .nan => .nan
  | .fin x, .fin y => .fin (x + y)
  | .fin _, .pinf => .pinf
  | .fin _, .ninf => .ninf
  | .pinf, .fin _ => .pinf
  | .ninf, .fin _ => .ninf
  | .pinf, .pinf => .pinf
  | .ninf, .ninf => .ninf
  | .pinf, .ninf => .nan
  | .ninf, .pinf => .nan

/-- IEEE-754 multiplication on extended values. -/
def mul : XF → XF → XF
  | .nan, _ => .nan
  | .fin _, .nan => .nan
  | .pinf, .nan => .nan
  | .ninf, .nan => .nan
  | .fin x, .fin y => .fin (x * y)
  | .fin x, .pinf => if x = 0 then .nan else if 0 < x then .pinf else .ninf
  | .fin x, .ninf => if x = 0 then .nan else if 0 < x then .ninf else .pinf
  | .pinf, .fin x => if x = 0 then .nan else if 0 < x then .pinf else .ninf
  | .ninf, .fin x => if x = 0 then .nan else if 0 < x then .ninf else .pinf
  | .pinf, .pinf => .pinf
  | .pinf, .ninf => .ninf
  | .ninf, .pinf => .ninf
  | .ninf, .ninf => .pinf

/-- IEEE-754 division on extended values (ℚ has a single zero, so `x / 0`
for `x > 0` is taken as `+inf`, matching the positive-zero case). -/
def div : XF → XF → XF
  | .nan, _ => .nan
  | .fin _, .nan => .nan
  | .pinf, .nan => .nan
  | .ninf, .nan => .nan
  | .fin x, .fin y =>
      if y = 0 then (if x = 0 then .nan else if 0 < x then .pinf else .ninf)
      else .fin (x / y)
  | .fin _, .pinf => .fin 0
  | .fin _, .ninf => .fin 0
  | .pinf, .fin y => if 0 ≤ y then .pinf else .ninf
  | .ninf, .fin y => if 0 ≤ y then .ninf else .pinf
  | .pinf, .pinf => .nan
  | .pinf, .ninf => .nan
  | .ninf, .pinf => .nan
  | .ninf, .ninf => .nan

/-- Sum of a list of extended values, as computed by `tensor.sum()`. -/
def sum (l : List XF) : XF := l.foldl add (.fin 0)

end XF

/-- State of a `torchmetrics.aggregation.MeanMetric`-derived accumulator:
`mean_value` (the running weighted sum) and `weight` (the running weight
count).  `reset()` / fresh construction give `⟨0, 0⟩`. -/
structure MetricState where
  mean_value : XF
  weight : XF
deriving DecidableEq

/-- The zero state produced by construction and by `reset()`. -/
def initState : MetricState := ⟨XF.fin 0, XF.fin 0⟩

/-- Embedding of `torchmetrics` `BaseAggregator._cast_and_nan_check_input`
under `MeanMetric`'s default `nan_strategy="warn"`: positions where either
the value or the weight is NaN are removed from both tensors (paired
elementwise filtering); nothing else is filtered.  Inputs are the
already-broadcast value and weight tensors, zipped positionally. -/
def nanFilter (value weight : List XF) : List (XF × XF) :=
  (value.zip weight).filter (fun p => !p.1.isNan && !p.2.isNan)

/-- Embedding of `NLL.update` (metrics.py lines 14-44): broadcast weight to
value's shape (callers below pass equal-length lists), run the paired NaN
filter, return unchanged if no elements remain (`value.numel() == 0`),
otherwise add `value.sum()` to `mean_value` and `weight.sum()` to `weight`. -/
def NLL.update (s : MetricState) (value weight : List XF) : MetricState :=
  let pairs := nanFilter value weight
  if pairs.length = 0 then s
  else ⟨s.mean_value.add (XF.sum (pairs.map Prod.fst)),
        s.weight.add (XF.sum (pairs.map Prod.snd))⟩

/-- Embedding of the inherited `MeanMetric.compute`: `mean_value / weight`. -/
def MeanMetric.compute (s : MetricState) : XF := s.mean_value.div s.weight

/-- A sequence of `update` calls applied in order. -/
def applyUpdates (s : MetricState) (us : List (List XF × List XF)) :
    MetricState :=
  us.foldl (fun st u => NLL.update st u.1 u.2) s

/-- Project a pair of extended values to its rational pair when both are
finite. -/
def finPair : XF × XF → Option (ℚ × ℚ)
  | (.fin a, .fin b) => some (a, b)
  | _ => none

/-- The surviving (paired-valid) index set of one update, as rational pairs:
positions where both the value and the weight are finite.  Under a
no-infinities hypothesis this is exactly what `nanFilter` keeps. -/
def survQ (value weight : List XF) : List (ℚ × ℚ) :=
  (value.zip weight).filterMap finPair

/-- Concatenated surviving pairs of a whole sequence of updates. -/
def allSurv (us : List (List XF × List XF)) : List (ℚ × ℚ) :=
  (us.map (fun u => survQ u.1 u.2)).flatten

/-- A list of extended values with no infinities (each entry is finite or
NaN). -/
def noInf (l : List XF) : Prop := ∀ x ∈ l, x ≠ XF.pinf ∧ x ≠ XF.ninf

/-- `math.log(2)` (metrics.py line 10). -/
noncomputable def LOG2 : ℝ := Real.log 2

/-- Real-valued view of the inherited `MeanMetric.compute` used by `NLL`
(identity transform): `mean_value / weight`. -/
noncomputable def NLL.compute (mean_value weight : ℝ) : ℝ := mean_value / weight

/-- Embedding of `BPD.compute` (metrics.py line 54):
`mean_value / weight / LOG2`. -/
noncomputable def BPD.compute (mean_value weight : ℝ) : ℝ :=
  mean_value / weight / LOG2

/-- Embedding of `Perplexity.compute` (metrics.py line 64):
`exp(mean_value / weight)`. -/
noncomputable def Perplexity.compute (mean_value weight : ℝ) : ℝ :=
  Real.exp (mean_value / weight)

/-- State of the `torchmetrics.aggregation.MeanMetric` instance
`sample_entropy`.  Entropy values are real (they involve logarithms), so
this accumulator is viewed over `ℝ`; NaN handling is irrelevant for the
entropy claims (entropies of finite samples are finite). -/
structure EntropyState where
  mean_value : ℝ
  weight : ℝ

/-- Embedding of the library `MeanMetric.update` specialized to the only way
`record_entropy` calls it: a scalar value with the default weight `1.0`.
The library adds `(value * weight).sum()` to `mean_value` and
`weight.sum()` to `weight`. -/
noncomputable def MeanMetric.update (s : EntropyState) (value : ℝ) :
    EntropyState :=
  ⟨s.mean_value + value * 1, s.weight + 1⟩

/-- The per-token-value counts `torch.unique(sample, return_counts=True)`
returns for one sample: one count for each distinct token value. -/
def uniqueCounts (l : List ℤ) : List ℕ := l.dedup.map (fun v => l.count v)

/-- `torch.special.entr`: `x ↦ -x * ln x` (with value `0` at `x = 0`, which
also holds here because `Real.log 0 = 0`). -/
noncomputable def entr (x : ℝ) : ℝ := -x * Real.log x

/-- The entropy recorded for one sample (metrics.py lines 157-160):
`entr(counts / counts.sum()).sum()`. -/
noncomputable def sampleEntropy (l : List ℤ) : ℝ :=
  ((uniqueCounts l).map
    (fun c : ℕ => entr ((c : ℝ) / ((uniqueCounts l).sum : ℝ)))).sum

/-- Embedding of `Metrics.record_entropy` (metrics.py lines 155-161): one
`sample_entropy.update(entropy)` call per sample, in order. -/
noncomputable def record_entropy (s : EntropyState) (tokens : List (List ℤ)) :
    EntropyState :=
  tokens.foldl (fun st sample => MeanMetric.update st (sampleEntropy sample)) s

/-- Running tally of `(chunk == eos).cumsum(-1)`: element `t` is the number
of occurrences of `eos` among positions `0..t` inclusive. -/
def cumEosGo (eos : ℤ) : ℕ → List ℤ → List ℕ
  | _, [] => []
  | acc, t :: ts =>
      (acc + if t = eos then 1 else 0) ::
        cumEosGo eos (acc + if t = eos then 1 else 0) ts

/-- `(chunk == eos_token_id).cumsum(-1)` for one row. -/
def cumEos (eos : ℤ) (l : List ℤ) : List ℕ := cumEosGo eos 0 l

/-- `first_eos` (metrics.py lines 205-207):
`(chunk == eos_token_id).cumsum(-1) == 1`. -/
def first_eos (eos : ℤ) (l : List ℤ) : List Bool :=
  (cumEos eos l).map (fun c => c == 1)

/-- `token_mask` (metrics.py line 208): `chunk != eos_token_id`. -/
def token_mask (eos : ℤ) (l : List ℤ) : List Bool :=
  l.map (fun t => !(t == eos))

/-- `valid_tokens` (metrics.py line 209):
`first_eos[..., 1:] + token_mask[..., 1:]` — `+` on bool tensors is
logical or. -/
def valid_tokens (eos : ℤ) (l : List ℤ) : List Bool :=
  List.zipWith (fun a b => a || b) ((first_eos eos l).drop 1)
    ((token_mask eos l).drop 1)

/-- The unshifted validity mask `first_eos + token_mask` over all positions
of a chunk (the mask of line 209 before the `[1:]` slices are applied). -/
def mask_full (eos : ℤ) (l : List ℤ) : List Bool :=
  List.zipWith (fun a b => a || b) (first_eos eos l) (token_mask eos l)

/-- A bool tensor entry cast to the accumulator dtype: `True ↦ 1.0`,
`False ↦ 0.0`. -/
def boolToX (b : Bool) : XF := XF.fin (if b then 1 else 0)

/-- Number of chunks `torch.split(t, ctx, dim=-1)` produces from a tensor of
width `L`: `⌈L / ctx⌉`. -/
def numChunks (ctx L : ℕ) : ℕ := (L + ctx - 1) / ctx

/-- Embedding of `torch.split(group, ctx, dim=-1)` on a `[B, L]` tensor
(list of `B` rows of common length `L`): the `j`-th chunk is the column
slice `group[:, j*ctx : (j+1)*ctx]`. -/
def splitChunks (ctx : ℕ) (rows : List (List ℤ)) : List (List (List ℤ)) :=
  (List.range (numChunks ctx (rows.headI).length)).map
    (fun j => rows.map (fun r => (r.drop (j * ctx)).take ctx))

/-- `nlls * valid_tokens` for one row of a chunk: the per-position losses of
the external scoring oracle multiplied elementwise by the (0/1-cast)
validity mask. -/
def maskedNll (eos : ℤ) (nllOf : List ℤ → List ℤ → List XF)
    (sc ac : List ℤ) : List XF :=
  List.zipWith XF.mul (nllOf sc ac) ((valid_tokens eos sc).map boolToX)

/-- The flattened `value` argument of `gen_ppl.update` for one chunk of a
group: `nlls * valid_tokens` over all rows. -/
def chunkValue (eos : ℤ) (nllOf : List ℤ → List ℤ → List XF)
    (scs acs : List (List ℤ)) : List XF :=
  (List.zipWith (fun sc ac => maskedNll eos nllOf sc ac) scs acs).flatten

/-- The flattened `weight` argument of `gen_ppl.update` for one chunk of a
group: the 0/1-cast validity mask over all rows. -/
def chunkWeight (eos : ℤ) (scs : List (List ℤ)) : List XF :=
  (scs.map (fun sc => (valid_tokens eos sc).map boolToX)).flatten

/-- Embedding of `Metrics.record_generative_perplexity`
(metrics.py lines 185-210) from the point where the `[N, L]` token batch
`samples` and its attention mask exist (the external tokenizer call of the
`retokenize=True` path, and the external model loading, are outside this
core; `nllOf` is the chunk-scoring oracle described at the top of the
file).  `batch_size = min(eval_ppl_batch_size, N)`; when that minimum is
`0`, Python's `N // batch_size` raises `ZeroDivisionError`, modelled as
`Except.error`.  Otherwise `num_batches = N / batch_size` full groups are
processed; each group is split into context-size chunks, and each chunk
contributes one `gen_ppl.update(nlls * valid_tokens, valid_tokens)` call. -/
def record_generative_perplexity (eval_ppl_batch_size ctx : ℕ) (eos : ℤ)
    (nllOf : List ℤ → List ℤ → List XF)
    (samples attn_mask : List (List ℤ)) (s : MetricState) :
    Except String MetricState :=
  let batch_size := min eval_ppl_batch_size samples.length
  if batch_size = 0 then Except.error "ZeroDivisionError"
  else
    let num_batches := samples.length / batch_size
    Except.ok ((List.range num_batches).foldl (fun st i =>
      let sgroup := (samples.drop (i * batch_size)).take batch_size
      let agroup := (attn_mask.drop (i * batch_size)).take batch_size
      ((splitChunks ctx sgroup).zip (splitChunks ctx agroup)).foldl
        (fun st2 p =>
          NLL.update st2 (chunkValue eos nllOf p.1 p.2) (chunkWeight eos p.1))
        st) s)

/-- Number of valid (mask-true) shifted positions of one row, summed over
all of its context-size chunks. -/
def rowValidCount (eos : ℤ) (ctx : ℕ) (r : List ℤ) : ℕ :=
  ((List.range (numChunks ctx r.length)).map
    (fun j => (valid_tokens eos ((r.drop (j * ctx)).take ctx)).count true)).sum

lemma filter_pairs_eq (ps : List (XF × XF))
    (h : ∀ p ∈ ps, (p.1 ≠ XF.pinf ∧ p.1 ≠ XF.ninf) ∧
      (p.2 ≠ XF.pinf ∧ p.2 ≠ XF.ninf)) :
    ps.filter (fun p => !p.1.isNan && !p.2.isNan) =
      (ps.filterMap finPair).map (fun q => (XF.fin q.1, XF.fin q.2)) := by
  induction ps with
  | nil => rfl
  | cons p ps ih =>
    have hp := h p (List.mem_cons_self p ps)
    have ht := ih (fun q hq => h q (List.mem_cons_of_mem _ hq))
    match p, hp with
    | (.fin a, .fin b), _ =>
        rw [List.filter_cons_of_pos (by rfl),
          List.filterMap_cons_some
            (show finPair (XF.fin a, XF.fin b) = some (a, b) from rfl),
          List.map_cons, ht]
    | (.fin a, .nan), _ =>
        rw [List.filter_cons_of_neg (by simp [XF.isNan]),
          List.filterMap_cons_none (by rfl), ht]
    | (.nan, y), _ =>
        rw [List.filter_cons_of_neg (by simp [XF.isNan]),
          List.filterMap_cons_none (by cases y <;> rfl), ht]
    | (.pinf, y), hp => exact absurd rfl hp.1.1
    | (.ninf, y), hp => exact absurd rfl hp.1.2
    | (.fin a, .pinf), hp => exact absurd rfl hp.2.1
    | (.fin a, .ninf), hp => exact absurd rfl hp.2.2

lemma nanFilter_eq_survQ (value weight : List XF)
    (hv : noInf value) (hw : noInf weight) :
    nanFilter value weight =
      (survQ value weight).map (fun q => (XF.fin q.1, XF.fin q.2)) := by
  refine filter_pairs_eq _ (fun p hp => ?_)
  have := List.of_mem_zip hp
  exact ⟨hv _ this.1, hw _ this.2⟩

lemma XF.foldl_add_fin (qs : List ℚ) (a : ℚ) :
    (qs.map XF.fin).foldl XF.add (XF.fin a) = XF.fin (a + qs.sum) := by
  induction qs generalizing a with
  | nil => simp
  | cons q qs ih => simp [XF.add, ih, add_assoc]

lemma XF.sum_map_fin (qs : List ℚ) :
    XF.sum (qs.map XF.fin) = XF.fin qs.sum := by
  simp [XF.sum, XF.foldl_add_fin]

/-- On inputs with no infinities, `NLL.update` adds the sums of the
surviving (non-NaN-paired) values and weights to the two state fields. -/
lemma NLL.update_fin (mv w : ℚ) (value weight : List XF)
    (hv : noInf value) (hw : noInf weight) :
    NLL.update ⟨XF.fin mv, XF.fin w⟩ value weight =
      ⟨XF.fin (mv + ((survQ value weight).map Prod.fst).sum),
       XF.fin (w + ((survQ value weight).map Prod.snd).sum)⟩ := by
  unfold NLL.update
  rw [nanFilter_eq_survQ _ _ hv hw]
  rcases hE : survQ value weight with _ | ⟨p, ps⟩
  · simp
  · simp only [hE, List.length_cons, List.map_map, Nat.succ_ne_zero,
      if_false, Function.comp_def]
    have h1 : (List.map (fun q : ℚ × ℚ => XF.fin q.1) (p :: ps)) =
        ((p :: ps).map Prod.fst).map XF.fin := by simp
    have h2 : (List.map (fun q : ℚ × ℚ => XF.fin q.2) (p :: ps)) =
        ((p :: ps).map Prod.snd).map XF.fin := by simp
    rw [h1, h2, XF.sum_map_fin, XF.sum_map_fin]
    simp [XF.add]

lemma allSurv_nil : allSurv [] = [] := rfl

lemma allSurv_cons (u : List XF × List XF) (us : List (List XF × List XF)) :
    allSurv (u :: us) = survQ u.1 u.2 ++ allSurv us := by
  simp [allSurv]

lemma allSurv_append (us vs : List (List XF × List XF)) :
    allSurv (us ++ vs) = allSurv us ++ allSurv vs := by
  simp [allSurv]

/-- On a sequence of updates whose inputs have no infinities, the final
state is the initial state plus the sums over all surviving pairs. -/
lemma applyUpdates_fin (us : List (List XF × List XF)) (mv w : ℚ)
    (h : ∀ u ∈ us, noInf u.1 ∧ noInf u.2) :
    applyUpdates ⟨XF.fin mv, XF.fin w⟩ us =
      ⟨XF.fin (mv + ((allSurv us).map Prod.fst).sum),
       XF.fin (w + ((allSurv us).map Prod.snd).sum)⟩ := by
  induction us generalizing mv w with
  | nil => simp [applyUpdates, allSurv_nil]
  | cons u us ih =>
    have hu := h u (List.mem_cons_self u us)
    have hrest : ∀ v ∈ us, noInf v.1 ∧ noInf v.2 :=
      fun v hv => h v (List.mem_cons_of_mem _ hv)
    show applyUpdates (NLL.update ⟨XF.fin mv, XF.fin w⟩ u.1 u.2) us = _
    rw [NLL.update_fin _ _ _ _ hu.1 hu.2, ih _ _ hrest]
    simp [allSurv_cons, add_assoc]

lemma mem_survQ (v w : List XF) (p : ℚ × ℚ) (hp : p ∈ survQ v w) :
    XF.fin p.1 ∈ v ∧ XF.fin p.2 ∈ w := by
  unfold survQ at hp
  rcases List.mem_filterMap.mp hp with ⟨q, hq, hfq⟩
  match q, hfq with
  | (.fin a, .fin b), hfq =>
    have : (a, b) = p := by
      have := hfq
      simp [finPair] at this
      exact this
    subst this
    exact ⟨(List.of_mem_zip hq).1, (List.of_mem_zip hq).2⟩

lemma mem_allSurv (us : List (List XF × List XF)) (p : ℚ × ℚ)
    (hp : p ∈ allSurv us) : ∃ u ∈ us, p ∈ survQ u.1 u.2 := by
  unfold allSurv at hp
  rcases List.mem_flatten.mp hp with ⟨l, hl, hpl⟩
  rcases List.mem_map.mp hl with ⟨u, hu, rfl⟩
  exact ⟨u, hu, hpl⟩

/-- Entries that are each NaN or a non-negative finite value. -/
def nonnegOrNanVals (l : List XF) : Prop :=
  ∀ x ∈ l, x = XF.nan ∨ ∃ c : ℚ, x = XF.fin c ∧ 0 ≤ c

lemma nonnegOrNanVals_noInf (l : List XF) (h : nonnegOrNanVals l) : noInf l := by
  intro x hx
  rcases h x hx with rfl | ⟨c, rfl, _⟩ <;> exact ⟨by simp, by simp⟩

lemma allSurv_nonneg (us : List (List XF × List XF))
    (h : ∀ u ∈ us, nonnegOrNanVals u.1 ∧ nonnegOrNanVals u.2) :
    ∀ p ∈ allSurv us, 0 ≤ p.1 ∧ 0 ≤ p.2 := by
  intro p hp
  rcases mem_allSurv us p hp with ⟨u, hu, hpu⟩
  have hm := mem_survQ _ _ _ hpu
  constructor
  · rcases (h u hu).1 _ hm.1 with hn | ⟨c, hc, hc0⟩
    · exact absurd hn (by simp)
    · rw [show p.1 = c from by injection hc] ; exact hc0
  · rcases (h u hu).2 _ hm.2 with hn | ⟨c, hc, hc0⟩
    · exact absurd hn (by simp)
    · rw [show p.2 = c from by injection hc] ; exact hc0

/-- C1 (the claim as stated is false on the code): after updates
`(value=2.0, weight=1)` and `(value=4.0, weight=3)` the accumulator's
`compute()` is `(2+4)/(1+3) = 3/2 = 1.5`, not
`(2*1+4*3)/(1+3) = 7/2 = 3.5` — `NLL.update` adds `value.sum()`, not
`(value*weight).sum()`. -/
theorem nll_compute_counterexample :
    MeanMetric.compute (applyUpdates initState
      [([XF.fin 2], [XF.fin 1]), ([XF.fin 4], [XF.fin 3])]) = XF.fin (3 / 2) ∧
    XF.fin ((3 : ℚ) / 2) ≠ XF.fin (7 / 2) := by
  constructor
  · simp [MeanMetric.compute, applyUpdates, NLL.update, nanFilter, XF.isNan,
      initState, XF.sum, XF.add, XF.div]
    norm_num
  · simp only [ne_eq, XF.fin.injEq]
    norm_num

/-- C1 (amended): for every sequence of updates with no infinite entries,
`compute()` equals the sum of surviving values divided by the sum of
surviving weights (survivors = positions where neither entry is NaN), and
the result is invariant under any reordering or rebatching of the updates
that preserves the multiset of surviving pairs. -/
theorem nll_compute_sum_ratio_order_independent
    (us us' : List (List XF × List XF))
    (h : ∀ u ∈ us, noInf u.1 ∧ noInf u.2)
    (h' : ∀ u ∈ us', noInf u.1 ∧ noInf u.2)
    (hperm : List.Perm (allSurv us') (allSurv us))
    (hw : ((allSurv us).map Prod.snd).sum ≠ 0) :
    MeanMetric.compute (applyUpdates initState us) =
      XF.fin (((allSurv us).map Prod.fst).sum /
        ((allSurv us).map Prod.snd).sum) ∧
    MeanMetric.compute (applyUpdates initState us') =
      MeanMetric.compute (applyUpdates initState us) := by
  have e1 := applyUpdates_fin us 0 0 h
  have e2 := applyUpdates_fin us' 0 0 h'
  have hsf : ((allSurv us').map Prod.fst).sum =
      ((allSurv us).map Prod.fst).sum := (hperm.map Prod.fst).sum_eq
  have hss : ((allSurv us').map Prod.snd).sum =
      ((allSurv us).map Prod.snd).sum := (hperm.map Prod.snd).sum_eq
  have hc : MeanMetric.compute (applyUpdates initState us) =
      XF.fin (((allSurv us).map Prod.fst).sum /
        ((allSurv us).map Prod.snd).sum) := by
    rw [show initState = ⟨XF.fin 0, XF.fin 0⟩ from rfl, e1]
    simp [MeanMetric.compute, XF.div, hw]
  refine ⟨hc, ?_⟩
  rw [show initState = ⟨XF.fin 0, XF.fin 0⟩ from rfl, e1, e2, hsf, hss]

/-- Witness for C1's amended theorem at the spec's concrete example. -/
theorem nll_compute_sum_ratio_witness :
    ((allSurv [([XF.fin 2], [XF.fin 1]),
      ([XF.fin 4], [XF.fin 3])]).map Prod.snd).sum ≠ 0 ∧
    MeanMetric.compute (applyUpdates initState
      [([XF.fin 2], [XF.fin 1]), ([XF.fin 4], [XF.fin 3])]) =
      XF.fin (((allSurv [([XF.fin 2], [XF.fin 1]),
          ([XF.fin 4], [XF.fin 3])]).map Prod.fst).sum /
        ((allSurv [([XF.fin 2], [XF.fin 1]),
          ([XF.fin 4], [XF.fin 3])]).map Prod.snd).sum) := by
  have ha : allSurv [([XF.fin 2], [XF.fin 1]), ([XF.fin 4], [XF.fin 3])] =
      [((2 : ℚ), (1 : ℚ)), ((4 : ℚ), (3 : ℚ))] := rfl
  have ha' : allSurv [([XF.fin 4], [XF.fin 3]), ([XF.fin 2], [XF.fin 1])] =
      [((4 : ℚ), (3 : ℚ)), ((2 : ℚ), (1 : ℚ))] := rfl
  have hw : ((allSurv [([XF.fin 2], [XF.fin 1]),
      ([XF.fin 4], [XF.fin 3])]).map Prod.snd).sum ≠ 0 := by
    rw [ha]; norm_num
  have hperm : List.Perm
      (allSurv [([XF.fin 4], [XF.fin 3]), ([XF.fin 2], [XF.fin 1])])
      (allSurv [([XF.fin 2], [XF.fin 1]), ([XF.fin 4], [XF.fin 3])]) := by
    rw [ha, ha']
    exact List.Perm.swap ((2 : ℚ), (1 : ℚ)) ((4 : ℚ), (3 : ℚ)) []
  refine ⟨hw, (nll_compute_sum_ratio_order_independent _ _ ?_ ?_ hperm hw).1⟩
  · intro u hu
    simp only [List.mem_cons, List.not_mem_nil, or_false] at hu
    rcases hu with rfl | rfl <;>
      exact ⟨by intro x hx; simp at hx; subst hx; simp,
        by intro x hx; simp at hx; subst hx; simp⟩
  · intro u hu
    simp only [List.mem_cons, List.not_mem_nil, or_false] at hu
    rcases hu with rfl | rfl <;>
      exact ⟨by intro x hx; simp at hx; subst hx; simp,
        by intro x hx; simp at hx; subst hx; simp⟩

/-- C2 (confirmed): on inputs without infinities, one `update` call adds
`sum(value)` to `mean_value` and `sum(weight)` to `weight`, both taken over
the same surviving (post-NaN-filter) index set, and `compute()` afterwards
returns the ratio of the accumulated value sum to the accumulated weight
sum. -/
theorem nll_update_sums_over_survivors (mv w : ℚ) (value weight : List XF)
    (hv : noInf value) (hw : noInf weight) :
    NLL.update ⟨XF.fin mv, XF.fin w⟩ value weight =
      ⟨XF.fin (mv + ((survQ value weight).map Prod.fst).sum),
       XF.fin (w + ((survQ value weight).map Prod.snd).sum)⟩ ∧
    (w + ((survQ value weight).map Prod.snd).sum ≠ 0 →
      MeanMetric.compute (NLL.update ⟨XF.fin mv, XF.fin w⟩ value weight) =
        XF.fin ((mv + ((survQ value weight).map Prod.fst).sum) /
          (w + ((survQ value weight).map Prod.snd).sum))) := by
  have e := NLL.update_fin mv w value weight hv hw
  refine ⟨e, fun hwz => ?_⟩
  rw [e]
  simp [MeanMetric.compute, XF.div, hwz]

/-- Witness for C2 at a concrete update. -/
theorem nll_update_sums_over_survivors_witness :
    NLL.update ⟨XF.fin 1, XF.fin 2⟩ [XF.fin 3, XF.fin 5] [XF.fin 1, XF.fin 1] =
      ⟨XF.fin (1 + ((survQ [XF.fin 3, XF.fin 5]
          [XF.fin 1, XF.fin 1]).map Prod.fst).sum),
       XF.fin (2 + ((survQ [XF.fin 3, XF.fin 5]
          [XF.fin 1, XF.fin 1]).map Prod.snd).sum)⟩ := by
  refine (nll_update_sums_over_survivors 1 2 _ _ ?_ ?_).1
  · intro x hx
    simp only [List.mem_cons, List.not_mem_nil, or_false] at hx
    rcases hx with rfl | rfl <;> exact ⟨by simp, by simp⟩
  · intro x hx
    simp only [List.mem_cons, List.not_mem_nil, or_false] at hx
    rcases hx with rfl | rfl <;> exact ⟨by simp, by simp⟩

/-- C6 (the claim as stated is false on the code): an infinite (`+inf`)
value entry is NOT filtered out — only NaN is.  Updating the zero state
with `value = [+inf]`, `weight = [1]` changes the state (to
`⟨+inf, 1⟩`), whereas under the claim the non-finite entry and its paired
weight would be excluded, leaving the state unchanged. -/
theorem nll_update_inf_not_filtered :
    NLL.update ⟨XF.fin 0, XF.fin 0⟩ [XF.pinf] [XF.fin 1] =
      ⟨XF.pinf, XF.fin 1⟩ ∧
    NLL.update ⟨XF.fin 0, XF.fin 0⟩ [XF.pinf] [XF.fin 1] ≠
      ⟨XF.fin 0, XF.fin 0⟩ := by
  constructor
  · simp [NLL.update, nanFilter, XF.isNan, XF.sum, XF.add]
  · simp [NLL.update, nanFilter, XF.isNan, XF.sum, XF.add]

/-- C6 (amended): `update` filters NaN entries of value and weight
elementwise in a paired fashion — a NaN on either side excludes the whole
position — without raising; infinite entries are not filtered.  If no
elements remain after filtering (including an empty input payload), the
accumulator state is unchanged. -/
theorem nll_update_nan_pairing_and_noop (s : MetricState)
    (value weight : List XF) (hlen : value.length = weight.length) :
    NLL.update s [] [] = s ∧
    ((∀ p ∈ value.zip weight, p.1.isNan = true ∨ p.2.isNan = true) →
      NLL.update s value weight = s) ∧
    (∀ a b : XF, a.isNan = true ∨ b.isNan = true →
      NLL.update s (value ++ [a]) (weight ++ [b]) =
        NLL.update s value weight) := by
  refine ⟨rfl, fun hall => ?_, fun a b hab => ?_⟩
  · have hfil : nanFilter value weight = [] := by
      unfold nanFilter
      rw [List.filter_eq_nil_iff]
      intro p hp
      rcases hall p hp with h1 | h2
      · simp [h1]
      · simp [h2]
    unfold NLL.update
    rw [hfil]
    rfl
  · have hzip : (value ++ [a]).zip (weight ++ [b]) =
        value.zip weight ++ [(a, b)] := by
      rw [List.zip_append hlen]
      rfl
    have hone : List.filter (fun p : XF × XF => !p.1.isNan && !p.2.isNan)
        [(a, b)] = [] := by
      rcases hab with h1 | h2
      · simp [List.filter, h1]
      · simp [List.filter, h2]
    have hfil : nanFilter (value ++ [a]) (weight ++ [b]) =
        nanFilter value weight := by
      unfold nanFilter
      rw [hzip, List.filter_append, hone, List.append_nil]
    unfold NLL.update
    rw [hfil]

/-- Witness for C6's amended theorem: appending a NaN-valued position to a
concrete update leaves the result unchanged. -/
theorem nll_update_nan_pairing_witness :
    NLL.update initState [XF.fin 1, XF.nan] [XF.fin 2, XF.fin 1] =
      NLL.update initState [XF.fin 1] [XF.fin 2] :=
  (nll_update_nan_pairing_and_noop initState [XF.fin 1] [XF.fin 2]
    rfl).2.2 XF.nan (XF.fin 1) (Or.inl rfl)

/-- C7 (confirmed): `BPD.compute` is the accumulated mean divided by
`ln 2`, `Perplexity.compute` is the exponential of the accumulated mean —
both over the same `(mean_value, weight)` accumulation that `NLL`'s
`compute` reads — and a zero mean gives BPD exactly 0 and perplexity
exactly 1. -/
theorem bpd_ppl_transforms_of_mean (mv w : ℝ) :
    BPD.compute mv w = NLL.compute mv w / LOG2 ∧
    Perplexity.compute mv w = Real.exp (NLL.compute mv w) ∧
    (NLL.compute mv w = 0 →
      BPD.compute mv w = 0 ∧ Perplexity.compute mv w = 1) := by
  refine ⟨rfl, rfl, fun h => ⟨?_, ?_⟩⟩
  · show mv / w / LOG2 = 0
    rw [show mv / w = NLL.compute mv w from rfl, h, zero_div]
  · show Real.exp (mv / w) = 1
    rw [show mv / w = NLL.compute mv w from rfl, h, Real.exp_zero]

/-- Witness for C7 at a zero-mean state. -/
theorem bpd_ppl_transforms_witness :
    NLL.compute 0 1 = 0 ∧ BPD.compute 0 1 = 0 ∧
      Perplexity.compute 0 1 = 1 := by
  have h0 : NLL.compute 0 1 = 0 := by
    show (0 : ℝ) / 1 = 0
    norm_num
  exact ⟨h0, ((bpd_ppl_transforms_of_mean 0 1).2.2 h0).1,
    ((bpd_ppl_transforms_of_mean 0 1).2.2 h0).2⟩

/-- C9 (the claim as stated is false on the code): with a non-negative
weight but a negative value, one update drives `mean_value` (the
weighted-sum field) from `0` down to `-1`: the weighted sum is not
monotonically non-decreasing under non-negative weights alone. -/
theorem nll_weighted_sum_can_decrease :
    applyUpdates initState [([XF.fin (-1)], [XF.fin 1])] =
      ⟨XF.fin (-1), XF.fin 1⟩ ∧ ((-1 : ℚ) < 0 ∧ (0 : ℚ) ≤ 1) := by
  constructor
  · show NLL.update initState [XF.fin (-1)] [XF.fin 1] = _
    simp [NLL.update, nanFilter, XF.isNan, XF.sum, XF.add, initState]
  · norm_num

/-- C9 (amended): between resets, under the precondition that supplied
weights are non-negative AND supplied values are non-negative (or NaN,
which the filter removes), the state stays finite with
`weight ≥ 0`, and both `mean_value` and `weight` are monotonically
non-decreasing along any prefix of the update sequence. -/
theorem nll_state_monotone_nonneg (us l₁ l₂ : List (List XF × List XF))
    (h : ∀ u ∈ us, nonnegOrNanVals u.1 ∧ nonnegOrNanVals u.2)
    (hsplit : us = l₁ ++ l₂) :
    ∃ mv₁ w₁ mv₂ w₂ : ℚ,
      applyUpdates initState l₁ = ⟨XF.fin mv₁, XF.fin w₁⟩ ∧
      applyUpdates initState us = ⟨XF.fin mv₂, XF.fin w₂⟩ ∧
      0 ≤ mv₁ ∧ 0 ≤ w₁ ∧ mv₁ ≤ mv₂ ∧ w₁ ≤ w₂ := by
  subst hsplit
  have h₁ : ∀ u ∈ l₁, nonnegOrNanVals u.1 ∧ nonnegOrNanVals u.2 :=
    fun u hu => h u (List.mem_append_left _ hu)
  have hInf : ∀ u ∈ l₁ ++ l₂, noInf u.1 ∧ noInf u.2 := fun u hu =>
    ⟨nonnegOrNanVals_noInf _ (h u hu).1, nonnegOrNanVals_noInf _ (h u hu).2⟩
  have hInf₁ : ∀ u ∈ l₁, noInf u.1 ∧ noInf u.2 :=
    fun u hu => hInf u (List.mem_append_left _ hu)
  have e1 := applyUpdates_fin l₁ 0 0 hInf₁
  have e2 := applyUpdates_fin (l₁ ++ l₂) 0 0 hInf
  have hnn := allSurv_nonneg (l₁ ++ l₂) h
  have hnn₁ : ∀ p ∈ allSurv l₁, 0 ≤ p.1 ∧ 0 ≤ p.2 := fun p hp =>
    hnn p (by rw [allSurv_append]; exact List.mem_append_left _ hp)
  have hnn₂ : ∀ p ∈ allSurv l₂, 0 ≤ p.1 ∧ 0 ≤ p.2 := fun p hp =>
    hnn p (by rw [allSurv_append]; exact List.mem_append_right _ hp)
  have hs1f : 0 ≤ ((allSurv l₁).map Prod.fst).sum :=
    List.sum_nonneg (by
      intro x hx
      rcases List.mem_map.mp hx with ⟨p, hp, rfl⟩
      exact (hnn₁ p hp).1)
  have hs1s : 0 ≤ ((allSurv l₁).map Prod.snd).sum :=
    List.sum_nonneg (by
      intro x hx
      rcases List.mem_map.mp hx with ⟨p, hp, rfl⟩
      exact (hnn₁ p hp).2)
  have hs2f : 0 ≤ ((allSurv l₂).map Prod.fst).sum :=
    List.sum_nonneg (by
      intro x hx
      rcases List.mem_map.mp hx with ⟨p, hp, rfl⟩
      exact (hnn₂ p hp).1)
  have hs2s : 0 ≤ ((allSurv l₂).map Prod.snd).sum :=
    List.sum_nonneg (by
      intro x hx
      rcases List.mem_map.mp hx with ⟨p, hp, rfl⟩
      exact (hnn₂ p hp).2)
  refine ⟨0 + ((allSurv l₁).map Prod.fst).sum,
    0 + ((allSurv l₁).map Prod.snd).sum,
    0 + ((allSurv (l₁ ++ l₂)).map Prod.fst).sum,
    0 + ((allSurv (l₁ ++ l₂)).map Prod.snd).sum, e1, e2, ?_, ?_, ?_, ?_⟩
  · linarith
  · linarith
  · rw [allSurv_append, List.map_append, List.sum_append]; linarith
  · rw [allSurv_append, List.map_append, List.sum_append]; linarith

/-- Witness for C9's amended theorem at a concrete split sequence. -/
theorem nll_state_monotone_nonneg_witness :
    ∃ mv₁ w₁ mv₂ w₂ : ℚ,
      applyUpdates initState [([XF.fin 1], [XF.fin 2])] =
        ⟨XF.fin mv₁, XF.fin w₁⟩ ∧
      applyUpdates initState
          [([XF.fin 1], [XF.fin 2]), ([XF.fin 3], [XF.fin 4])] =
        ⟨XF.fin mv₂, XF.fin w₂⟩ ∧
      0 ≤ mv₁ ∧ 0 ≤ w₁ ∧ mv₁ ≤ mv₂ ∧ w₁ ≤ w₂ := by
  refine nll_state_monotone_nonneg
    [([XF.fin 1], [XF.fin 2]), ([XF.fin 3], [XF.fin 4])]
    [([XF.fin 1], [XF.fin 2])] [([XF.fin 3], [XF.fin 4])] ?_ rfl
  intro u hu
  simp only [List.mem_cons, List.not_mem_nil, or_false] at hu
  rcases hu with rfl | rfl
  · refine ⟨?_, ?_⟩ <;>
      · intro x hx
        simp only [List.mem_cons, List.not_mem_nil, or_false] at hx
        subst hx
        exact Or.inr ⟨_, rfl, by norm_num⟩
  · refine ⟨?_, ?_⟩ <;>
      · intro x hx
        simp only [List.mem_cons, List.not_mem_nil, or_false] at hx
        subst hx
        exact Or.inr ⟨_, rfl, by norm_num⟩

lemma record_entropy_fold (s : EntropyState) (tokens : List (List ℤ)) :
    (record_entropy s tokens).mean_value =
      s.mean_value + (tokens.map sampleEntropy).sum ∧
    (record_entropy s tokens).weight = s.weight + tokens.length := by
  induction tokens generalizing s with
  | nil => simp [record_entropy]
  | cons t ts ih =>
    have hstep : record_entropy s (t :: ts) =
        record_entropy (MeanMetric.update s (sampleEntropy t)) ts := rfl
    rcases ih (MeanMetric.update s (sampleEntropy t)) with ⟨ihm, ihw⟩
    constructor
    · rw [hstep, ihm]
      show s.mean_value + sampleEntropy t * 1 + _ = _
      simp [List.sum_cons]
      ring
    · rw [hstep, ihw]
      show s.weight + 1 + (ts.length : ℝ) = _
      simp [List.length_cons]
      ring

lemma sampleEntropy_replicate (a : ℤ) (n : ℕ) (hn : 1 ≤ n) :
    sampleEntropy (List.replicate n a) = 0 := by
  unfold sampleEntropy uniqueCounts
  rw [List.replicate_dedup (by omega)]
  have hcount : (List.replicate n a).count a = n := by
    simp [List.count_replicate]
  simp only [List.map_cons, List.map_nil, hcount, List.sum_cons,
    List.sum_nil, add_zero]
  have hn0 : (n : ℝ) ≠ 0 := by positivity
  rw [div_self hn0]
  simp [entr]

lemma sampleEntropy_uniform (l : List ℤ) (m : ℕ) (hm : 1 ≤ m)
    (hc : ∀ v ∈ l.dedup, l.count v = m) :
    sampleEntropy l = Real.log (l.dedup.length : ℝ) := by
  unfold sampleEntropy uniqueCounts
  have hmap : l.dedup.map (fun v => l.count v) =
      List.replicate l.dedup.length m := by
    rw [List.eq_replicate_iff]
    refine ⟨by simp, ?_⟩
    intro c hcmem
    rcases List.mem_map.mp hcmem with ⟨v, hv, rfl⟩
    exact hc v hv
  rw [hmap]
  rcases Nat.eq_zero_or_pos l.dedup.length with h0 | hpos
  · rw [h0]
    simp
  · set k := l.dedup.length with hk
    have hsum : (List.replicate k m).sum = k * m := by
      rw [List.sum_replicate, smul_eq_mul]
    rw [hsum, List.map_replicate, List.sum_replicate, nsmul_eq_mul]
    have hk0 : (k : ℝ) ≠ 0 := by positivity
    have hm0 : (m : ℝ) ≠ 0 := by positivity
    have hfrac : ((m : ℕ) : ℝ) / ((k * m : ℕ) : ℝ) = ((k : ℝ))⁻¹ := by
      push_cast
      field_simp
      ring
    rw [hfrac]
    unfold entr
    rw [Real.log_inv]
    field_simp

/-- C8 (confirmed): `record_entropy` performs exactly one unweighted
running-mean update per sample — after the call the accumulated weight has
grown by the number of samples and the accumulated sum by the sum of the
per-sample entropies — where each sample's entropy is
`entr(counts / counts.sum()).sum()` over the counts of its distinct token
values; an all-identical sample contributes entropy `0`, and a sample
whose `k` distinct tokens appear equally often contributes `ln k`. -/
theorem record_entropy_spec (s : EntropyState) (tokens : List (List ℤ)) :
    (record_entropy s tokens).weight = s.weight + tokens.length ∧
    (record_entropy s tokens).mean_value =
      s.mean_value + (tokens.map sampleEntropy).sum ∧
    (∀ (a : ℤ) (n : ℕ), 1 ≤ n → sampleEntropy (List.replicate n a) = 0) ∧
    (∀ (l : List ℤ) (m : ℕ), 1 ≤ m → (∀ v ∈ l.dedup, l.count v = m) →
      sampleEntropy l = Real.log (l.dedup.length : ℝ)) :=
  ⟨(record_entropy_fold s tokens).2, (record_entropy_fold s tokens).1,
    fun a n hn => sampleEntropy_replicate a n hn,
    fun l m hm hc => sampleEntropy_uniform l m hm hc⟩

/-- Witness for C8 at concrete inputs: one update per sample on a
two-sample call, and entropy `0` for a constant sample. -/
theorem record_entropy_spec_witness :
    (record_entropy ⟨0, 0⟩ [[1, 1, 1], [2, 3]]).weight =
      0 + (([[1, 1, 1], [2, 3]] : List (List ℤ)).length : ℝ) ∧
    sampleEntropy (List.replicate 3 (5 : ℤ)) = 0 :=
  ⟨(record_entropy_spec ⟨0, 0⟩ [[1, 1, 1], [2, 3]]).1,
    (record_entropy_spec ⟨0, 0⟩ [[1, 1, 1], [2, 3]]).2.2.1 5 3 (by norm_num)⟩

lemma cumEosGo_length (eos : ℤ) (acc : ℕ) (l : List ℤ) :
    (cumEosGo eos acc l).length = l.length := by
  induction l generalizing acc with
  | nil => rfl
  | cons t ts ih => simp [cumEosGo, ih]

lemma cumEos_length (eos : ℤ) (l : List ℤ) :
    (cumEos eos l).length = l.length := cumEosGo_length eos 0 l

lemma first_eos_length (eos : ℤ) (l : List ℤ) :
    (first_eos eos l).length = l.length := by
  simp [first_eos, cumEos_length]

lemma token_mask_length (eos : ℤ) (l : List ℤ) :
    (token_mask eos l).length = l.length := by
  simp [token_mask]

lemma mask_full_length (eos : ℤ) (l : List ℤ) :
    (mask_full eos l).length = l.length := by
  simp [mask_full, first_eos_length, token_mask_length]

lemma valid_tokens_eq_drop_mask (eos : ℤ) (l : List ℤ) :
    valid_tokens eos l = (mask_full eos l).drop 1 := by
  unfold valid_tokens mask_full
  rw [List.drop_zipWith]

lemma valid_tokens_length (eos : ℤ) (l : List ℤ) :
    (valid_tokens eos l).length = l.length - 1 := by
  rw [valid_tokens_eq_drop_mask, List.length_drop, mask_full_length]

lemma cumEosGo_getD (eos : ℤ) (l : List ℤ) :
    ∀ (acc i : ℕ), i < l.length →
      (cumEosGo eos acc l).getD i 0 = acc + (l.take (i + 1)).count eos := by
  induction l with
  | nil => intro acc i h; simp at h
  | cons t ts ih =>
    intro acc i h
    cases i with
    | zero =>
      show acc + (if t = eos then 1 else 0) = acc + ((t :: ts).take 1).count eos
      by_cases he : t = eos <;> simp [he, List.count_cons]
    | succ i =>
      show (cumEosGo eos (acc + if t = eos then 1 else 0) ts).getD i 0 = _
      rw [ih _ i (by simpa using h)]
      rw [List.take_succ_cons, List.count_cons]
      by_cases he : t = eos <;> simp [he] <;> try omega

lemma cumEos_getD (eos : ℤ) (l : List ℤ) (i : ℕ) (h : i < l.length) :
    (cumEos eos l).getD i 0 = (l.take (i + 1)).count eos := by
  have := cumEosGo_getD eos l 0 i h
  simpa using this

lemma mask_full_true_iff (eos : ℤ) (l : List ℤ) (i : ℕ) (h : i < l.length) :
    ((mask_full eos l).getD i false = true ↔
      ((l.take (i + 1)).count eos = 1 ∨ l.getD i 0 ≠ eos)) := by
  have hm : i < (mask_full eos l).length := by rw [mask_full_length]; exact h
  have hf : i < (first_eos eos l).length := by rw [first_eos_length]; exact h
  have hk : i < (token_mask eos l).length := by rw [token_mask_length]; exact h
  have hcl : i < (cumEos eos l).length := by rw [cumEos_length]; exact h
  rw [List.getD_eq_getElem _ _ hm]
  unfold mask_full
  rw [List.getElem_zipWith]
  unfold first_eos token_mask
  rw [List.getElem_map, List.getElem_map]
  have hce : (cumEos eos l)[i] = (l.take (i + 1)).count eos := by
    rw [← List.getD_eq_getElem (cumEos eos l) 0 hcl]
    exact cumEos_getD eos l i h
  have hld : l.getD i 0 = l[i] := List.getD_eq_getElem l 0 h
  rw [hce, hld]
  simp

lemma valid_tokens_getD (eos : ℤ) (l : List ℤ) (i : ℕ)
    (h : i + 1 < l.length) :
    (valid_tokens eos l).getD i false = (mask_full eos l).getD (i + 1) false := by
  rw [valid_tokens_eq_drop_mask]
  have h1 : i < ((mask_full eos l).drop 1).length := by
    rw [List.length_drop, mask_full_length]
    omega
  have h2 : i + 1 < (mask_full eos l).length := by
    rw [mask_full_length]
    exact h
  rw [List.getD_eq_getElem _ _ h1, List.getD_eq_getElem _ _ h2]
  rw [List.getElem_drop]
  congr 1
  omega

/-- C3 (confirmed): the validity mask over a chunk, applied to shifted
positions `[1:]`, marks shifted position `i` (original position `i+1`) as
valid iff the cumulative count of EOS occurrences up to and including
`i+1` equals exactly 1 or the token at `i+1` is not EOS; on
`[A, B, EOS, EOS, EOS]` (A, B ≠ EOS) the shifted mask is
`[true, true, false, false]`: B and the first EOS valid, the two trailing
EOS invalid. -/
theorem valid_tokens_mask_spec (eos : ℤ) (l : List ℤ) :
    (valid_tokens eos l).length = l.length - 1 ∧
    (∀ i, i + 1 < l.length →
      ((valid_tokens eos l).getD i false = true ↔
        ((l.take (i + 2)).count eos = 1 ∨ l.getD (i + 1) 0 ≠ eos))) ∧
    (∀ a b : ℤ, a ≠ eos → b ≠ eos →
      valid_tokens eos [a, b, eos, eos, eos] = [true, true, false, false]) := by
  refine ⟨valid_tokens_length eos l, fun i hi => ?_, fun a b ha hb => ?_⟩
  · rw [valid_tokens_getD eos l i hi]
    exact mask_full_true_iff eos l (i + 1) hi
  · simp [valid_tokens, first_eos, token_mask, cumEos, cumEosGo, ha, hb]

/-- Witness for C3 at the spec's concrete token sequence. -/
theorem valid_tokens_mask_spec_witness :
    valid_tokens 9 [1, 2, 9, 9, 9] = [true, true, false, false] :=
  (valid_tokens_mask_spec 9 [1, 2, 9, 9, 9]).2.2 1 2 (by decide) (by decide)

/-- C10 (confirmed): the cumulative EOS count of the validity mask is
computed within each chunk independently — `first_eos` is evaluated on the
chunk alone — so the first EOS inside a chunk is marked valid by that
chunk's mask even when an EOS already occurred in an earlier chunk of the
same sequence; if that first EOS is not at chunk position 0, the shifted
(applied) mask also marks it valid. -/
theorem chunk_mask_counts_independently (eos : ℤ) (ctx j t : ℕ)
    (seq ck : List ℤ) (hctx : 0 < ctx)
    (hj : j < numChunks ctx seq.length)
    (hc : ck = (seq.drop (j * ctx)).take ctx)
    (ht : t < ck.length)
    (heos : ck.getD t 0 = eos)
    (hfirst : (ck.take t).count eos = 0)
    (hearlier : 0 < (seq.take (j * ctx)).count eos) :
    (mask_full eos ck).getD t false = true ∧
    (1 ≤ t → (valid_tokens eos ck).getD (t - 1) false = true) := by
  have hct : ck[t] = eos := by
    rw [← List.getD_eq_getElem ck 0 ht]
    exact heos
  have hcount : (ck.take (t + 1)).count eos = 1 := by
    rw [List.take_succ, List.count_append, hfirst]
    have : ck[t]? = some eos := by
      rw [List.getElem?_eq_getElem ht, hct]
    rw [this]
    simp
  have hmask : (mask_full eos ck).getD t false = true :=
    (mask_full_true_iff eos ck t ht).mpr (Or.inl hcount)
  refine ⟨hmask, fun ht1 => ?_⟩
  have hsub : t - 1 + 1 = t := by omega
  rw [valid_tokens_getD eos ck (t - 1) (by omega), hsub]
  exact hmask

/-- Witness for C10: sequence `[9,1,2,9]` with EOS = 9 and context size 2;
the second chunk `[2,9]` has its EOS marked valid although the first chunk
already contained an EOS. -/
theorem chunk_mask_counts_independently_witness :
    (0 < (([9, 1, 2, 9] : List ℤ).take (1 * 2)).count 9) ∧
    (mask_full 9 [2, 9]).getD 1 false = true ∧
    (valid_tokens 9 [2, 9]).getD 0 false = true := by
  have h := chunk_mask_counts_independently 9 2 1 1 [9, 1, 2, 9] [2, 9]
    (by decide) (by decide) (by decide) (by decide) (by decide) (by decide)
    (by decide)
  exact ⟨by decide, h.1, h.2 (by decide)⟩

/-- Rational sum of an all-finite list of extended values. -/
def qsumL (l : List XF) : ℚ := (l.map XF.q).sum

lemma mem_zipWith {α β γ : Type} (f : α → β → γ) (as : List α) (bs : List β)
    (x : γ) (hx : x ∈ List.zipWith f as bs) :
    ∃ a ∈ as, ∃ b ∈ bs, x = f a b := by
  induction as generalizing bs with
  | nil => simp at hx
  | cons a as ih =>
    cases bs with
    | nil => simp at hx
    | cons b bs =>
      rw [List.zipWith_cons_cons] at hx
      rcases List.mem_cons.mp hx with rfl | hmem
      · exact ⟨a, List.mem_cons_self a as, b, List.mem_cons_self b bs, rfl⟩
      · rcases ih bs hmem with ⟨a', ha', b', hb', rfl⟩
        exact ⟨a', List.mem_cons_of_mem _ ha', b', List.mem_cons_of_mem _ hb',
          rfl⟩

lemma isFin_noInf (l : List XF) (h : ∀ x ∈ l, x.isFin = true) : noInf l := by
  intro x hx
  have := h x hx
  cases x <;> simp_all [XF.isFin]

lemma survQ_sums_fin (v w : List XF)
    (hv : ∀ x ∈ v, x.isFin = true) (hw : ∀ x ∈ w, x.isFin = true)
    (hlen : v.length = w.length) :
    ((survQ v w).map Prod.fst).sum = qsumL v ∧
    ((survQ v w).map Prod.snd).sum = qsumL w := by
  induction v generalizing w with
  | nil =>
    cases w with
    | nil => simp [survQ, qsumL]
    | cons y ys => simp at hlen
  | cons x xs ih =>
    cases w with
    | nil => simp at hlen
    | cons y ys =>
      obtain ⟨qx, rfl⟩ : ∃ c, x = XF.fin c := by
        have := hv x (List.mem_cons_self x xs)
        cases x <;> simp_all [XF.isFin]
      obtain ⟨qy, rfl⟩ : ∃ c, y = XF.fin c := by
        have := hw y (List.mem_cons_self y ys)
        cases y <;> simp_all [XF.isFin]
      have ihh := ih ys (fun z hz => hv z (List.mem_cons_of_mem _ hz))
        (fun z hz => hw z (List.mem_cons_of_mem _ hz)) (by simpa using hlen)
      have hz : survQ (XF.fin qx :: xs) (XF.fin qy :: ys) =
          (qx, qy) :: survQ xs ys := by
        unfold survQ
        rw [List.zip_cons_cons,
          List.filterMap_cons_some
            (show finPair (XF.fin qx, XF.fin qy) = some (qx, qy) from rfl)]
      rw [hz]
      constructor
      · simp only [List.map_cons, List.sum_cons, ihh.1]
        simp [qsumL, XF.q]
      · simp only [List.map_cons, List.sum_cons, ihh.2]
        simp [qsumL, XF.q]

/-- One update on all-finite, equal-length tensors adds their plain sums. -/
lemma update_finsums (mv w : ℚ) (v wt : List XF)
    (hv : ∀ x ∈ v, x.isFin = true) (hw : ∀ x ∈ wt, x.isFin = true)
    (hlen : v.length = wt.length) :
    NLL.update ⟨XF.fin mv, XF.fin w⟩ v wt =
      ⟨XF.fin (mv + qsumL v), XF.fin (w + qsumL wt)⟩ := by
  rw [NLL.update_fin mv w v wt (isFin_noInf v hv) (isFin_noInf wt hw),
    (survQ_sums_fin v wt hv hw hlen).1, (survQ_sums_fin v wt hv hw hlen).2]

lemma qsumL_boolToX (bl : List Bool) :
    qsumL (bl.map boolToX) = (bl.count true : ℚ) := by
  induction bl with
  | nil => simp [qsumL]
  | cons b bl ih =>
    have hq : XF.q (boolToX b) = if b then 1 else 0 := rfl
    simp only [List.map_cons, qsumL, List.sum_cons, List.count_cons] at ih ⊢
    rw [hq, ih]
    cases b
    · simp
    · push_cast
      ring_nf
      simp [add_comm]

lemma chunkWeight_fin (eos : ℤ) (scs : List (List ℤ)) :
    ∀ x ∈ chunkWeight eos scs, x.isFin = true := by
  intro x hx
  unfold chunkWeight at hx
  rcases List.mem_flatten.mp hx with ⟨l, hl, hxl⟩
  rcases List.mem_map.mp hl with ⟨sc, hsc, rfl⟩
  rcases List.mem_map.mp hxl with ⟨bb, hbb, rfl⟩
  rfl

lemma chunkValue_fin (eos : ℤ) (nllOf : List ℤ → List ℤ → List XF)
    (scs acs : List (List ℤ))
    (hfin : ∀ sc ac, ∀ x ∈ nllOf sc ac, x.isFin = true) :
    ∀ x ∈ chunkValue eos nllOf scs acs, x.isFin = true := by
  intro x hx
  unfold chunkValue at hx
  rcases List.mem_flatten.mp hx with ⟨l, hl, hxl⟩
  rcases mem_zipWith _ _ _ _ hl with ⟨sc, hsc, ac, hac, rfl⟩
  unfold maskedNll at hxl
  rcases mem_zipWith _ _ _ _ hxl with ⟨n, hn, m, hm, rfl⟩
  rcases List.mem_map.mp hm with ⟨bb, hbb, rfl⟩
  obtain ⟨qn, rfl⟩ : ∃ c, n = XF.fin c := by
    have := hfin sc ac n hn
    cases n <;> simp_all [XF.isFin]
  rfl

lemma chunk_payload_lengths (eos : ℤ) (nllOf : List ℤ → List ℤ → List XF)
    (scs acs : List (List ℤ))
    (hlenN : ∀ sc ac, (nllOf sc ac).length = sc.length - 1)
    (hrows : scs.length = acs.length) :
    (chunkValue eos nllOf scs acs).length = (chunkWeight eos scs).length := by
  unfold chunkValue chunkWeight
  induction scs generalizing acs with
  | nil => cases acs <;> rfl
  | cons sc scs ih =>
    cases acs with
    | nil => simp at hrows
    | cons ac acs =>
      simp only [List.zipWith_cons_cons, List.map_cons, List.flatten_cons,
        List.length_append]
      rw [ih acs (by simpa using hrows)]
      congr 1
      unfold maskedNll
      simp only [List.length_zipWith, List.length_map, hlenN,
        valid_tokens_length]
      omega

lemma list_sum_map_add {α : Type} (l : List α) (f g : α → ℚ) :
    (l.map (fun x => f x + g x)).sum = (l.map f).sum + (l.map g).sum := by
  induction l with
  | nil => simp
  | cons x xs ih =>
    simp only [List.map_cons, List.sum_cons, ih]
    ring

lemma qsumL_chunkWeight (eos : ℤ) (scs : List (List ℤ)) :
    qsumL (chunkWeight eos scs) =
      (scs.map (fun sc => ((valid_tokens eos sc).count true : ℚ))).sum := by
  unfold chunkWeight qsumL
  rw [List.map_flatten, List.sum_flatten, List.map_map, List.map_map]
  congr 1
  refine List.map_congr_left (fun sc _ => ?_)
  show ((sc |> valid_tokens eos).map boolToX |>.map XF.q).sum = _
  have := qsumL_boolToX (valid_tokens eos sc)
  unfold qsumL at this
  rw [this]

lemma cast_sum_map {α : Type} (l : List α) (f : α → ℕ) :
    (((l.map f).sum : ℕ) : ℚ) = (l.map (fun x => (f x : ℚ))).sum := by
  rw [Nat.cast_list_sum, List.map_map]
  rfl

/-- Folding a list of chunk updates over a finite state adds, per chunk,
the sums of its masked values and of its 0/1 mask weights. -/
lemma foldl_chunk_updates (eos : ℤ) (nllOf : List ℤ → List ℤ → List XF)
    (hfin : ∀ sc ac, ∀ x ∈ nllOf sc ac, x.isFin = true)
    (hlenN : ∀ sc ac, (nllOf sc ac).length = sc.length - 1)
    (ps : List (List (List ℤ) × List (List ℤ)))
    (hrows : ∀ p ∈ ps, p.1.length = p.2.length) (mv w : ℚ) :
    ps.foldl (fun st2 p =>
        NLL.update st2 (chunkValue eos nllOf p.1 p.2) (chunkWeight eos p.1))
      ⟨XF.fin mv, XF.fin w⟩ =
    ⟨XF.fin (mv +
        (ps.map (fun p => qsumL (chunkValue eos nllOf p.1 p.2))).sum),
     XF.fin (w + (ps.map (fun p => qsumL (chunkWeight eos p.1))).sum)⟩ := by
  induction ps generalizing mv w with
  | nil => simp
  | cons p ps ih =>
    rw [List.foldl_cons,
      update_finsums mv w _ _
        (chunkValue_fin eos nllOf p.1 p.2 hfin) (chunkWeight_fin eos p.1)
        (chunk_payload_lengths eos nllOf p.1 p.2 hlenN
          (hrows p (List.mem_cons_self p ps))),
      ih (fun q hq => hrows q (List.mem_cons_of_mem _ hq))]
    simp only [List.map_cons, List.sum_cons, MetricState.mk.injEq,
      XF.fin.injEq]
    constructor <;> ring

lemma qsumL_chunkWeight_two (eos : ℤ) (u v : List ℤ) :
    qsumL (chunkWeight eos [u, v]) =
      ((valid_tokens eos u).count true : ℚ) +
      ((valid_tokens eos v).count true : ℚ) := by
  rw [qsumL_chunkWeight]
  simp

/-- The chunk-major fold over a two-row group adds exactly the two rows'
valid-position counts to the weight field. -/
lemma group_fold_two_rows (eos : ℤ) (ctx : ℕ)
    (nllOf : List ℤ → List ℤ → List XF)
    (hfin : ∀ sc ac, ∀ x ∈ nllOf sc ac, x.isFin = true)
    (hlenN : ∀ sc ac, (nllOf sc ac).length = sc.length - 1)
    (r1 r2 s1 s2 : List ℤ) (h1 : s1.length = r1.length)
    (hr : r2.length = r1.length) (mv w : ℚ) :
    ((splitChunks ctx [r1, r2]).zip (splitChunks ctx [s1, s2])).foldl
      (fun st2 p =>
        NLL.update st2 (chunkValue eos nllOf p.1 p.2) (chunkWeight eos p.1))
      ⟨XF.fin mv, XF.fin w⟩ =
    ⟨XF.fin (mv + ((List.range (numChunks ctx r1.length)).map (fun j =>
        qsumL (chunkValue eos nllOf
          [(r1.drop (j * ctx)).take ctx, (r2.drop (j * ctx)).take ctx]
          [(s1.drop (j * ctx)).take ctx,
            (s2.drop (j * ctx)).take ctx]))).sum),
     XF.fin (w + ((rowValidCount eos ctx r1 : ℚ) +
       (rowValidCount eos ctx r2 : ℚ)))⟩ := by
  have hsplit1 : splitChunks ctx [r1, r2] =
      (List.range (numChunks ctx r1.length)).map
        (fun j => [(r1.drop (j * ctx)).take ctx,
          (r2.drop (j * ctx)).take ctx]) := rfl
  have hsplit2 : splitChunks ctx [s1, s2] =
      (List.range (numChunks ctx r1.length)).map
        (fun j => [(s1.drop (j * ctx)).take ctx,
          (s2.drop (j * ctx)).take ctx]) := by
    have base : splitChunks ctx [s1, s2] =
        (List.range (numChunks ctx s1.length)).map
          (fun j => [(s1.drop (j * ctx)).take ctx,
            (s2.drop (j * ctx)).take ctx]) := rfl
    rw [base, h1]
  rw [hsplit1, hsplit2, List.zip_map']
  rw [foldl_chunk_updates eos nllOf hfin hlenN _
    (by
      intro p hp
      rcases List.mem_map.mp hp with ⟨j, hj, rfl⟩
      rfl) mv w]
  simp only [MetricState.mk.injEq, XF.fin.injEq]
  constructor
  · rw [List.map_map]
    rfl
  · rw [List.map_map]
    rw [show ((fun p : List (List ℤ) × List (List ℤ) =>
        qsumL (chunkWeight eos p.1)) ∘
      (fun j => ([(r1.drop (j * ctx)).take ctx,
          (r2.drop (j * ctx)).take ctx],
        [(s1.drop (j * ctx)).take ctx, (s2.drop (j * ctx)).take ctx]))) =
      (fun j => qsumL (chunkWeight eos [(r1.drop (j * ctx)).take ctx,
        (r2.drop (j * ctx)).take ctx])) from rfl]
    simp only [qsumL_chunkWeight_two]
    rw [list_sum_map_add]
    unfold rowValidCount
    rw [hr, cast_sum_map, cast_sum_map]

/-- With `N = 5` samples and `eval_ppl_batch_size = 2`, the pipeline scores
exactly the two full groups `[rows 0-1]` and `[rows 2-3]`; row 4 is
dropped. -/
lemma record_gen_ppl_five_two (ctx : ℕ) (eos : ℤ)
    (nllOf : List ℤ → List ℤ → List XF) (s : MetricState)
    (r0 r1 r2 r3 r4 t0 t1 t2 t3 t4 : List ℤ) :
    record_generative_perplexity 2 ctx eos nllOf [r0, r1, r2, r3, r4]
      [t0, t1, t2, t3, t4] s =
    Except.ok
      (((splitChunks ctx [r2, r3]).zip (splitChunks ctx [t2, t3])).foldl
        (fun st2 p =>
          NLL.update st2 (chunkValue eos nllOf p.1 p.2) (chunkWeight eos p.1))
        (((splitChunks ctx [r0, r1]).zip (splitChunks ctx [t0, t1])).foldl
          (fun st2 p =>
            NLL.update st2 (chunkValue eos nllOf p.1 p.2)
              (chunkWeight eos p.1)) s)) := by
  simp [record_generative_perplexity]
  rfl

/-- C4 (confirmed): with `N = 5` input samples and `eval_ppl_batch_size =
2`, `record_generative_perplexity` scores exactly `floor(5/2) = 2` full
groups — samples 0-3 — and the accumulator's weight grows by exactly the
total count of valid (mask-true) token positions of those four samples;
the dropped fifth sample has no effect on the result whatsoever
(hypotheses: the scoring oracle returns finite per-position losses of the
standard shifted length, and the attention-mask rows of the scored groups
have their rows' lengths, as tensors do). -/
theorem record_gen_ppl_batches_weight (ctx : ℕ) (eos : ℤ)
    (nllOf : List ℤ → List ℤ → List XF)
    (hfin : ∀ sc ac, ∀ x ∈ nllOf sc ac, x.isFin = true)
    (hlenN : ∀ sc ac, (nllOf sc ac).length = sc.length - 1)
    (mv w : ℚ) (r0 r1 r2 r3 r4 t0 t1 t2 t3 t4 : List ℤ)
    (hb : r1.length = r0.length) (hdl : r3.length = r2.length)
    (ht0 : t0.length = r0.length) (ht2 : t2.length = r2.length) :
    (∃ mv' : ℚ,
      record_generative_perplexity 2 ctx eos nllOf [r0, r1, r2, r3, r4]
        [t0, t1, t2, t3, t4] ⟨XF.fin mv, XF.fin w⟩ =
      Except.ok ⟨XF.fin mv',
        XF.fin (w + ((rowValidCount eos ctx r0 + rowValidCount eos ctx r1 +
          rowValidCount eos ctx r2 + rowValidCount eos ctx r3 : ℕ) : ℚ))⟩) ∧
    (∀ r4' t4' : List ℤ,
      record_generative_perplexity 2 ctx eos nllOf [r0, r1, r2, r3, r4']
        [t0, t1, t2, t3, t4'] ⟨XF.fin mv, XF.fin w⟩ =
      record_generative_perplexity 2 ctx eos nllOf [r0, r1, r2, r3, r4]
        [t0, t1, t2, t3, t4] ⟨XF.fin mv, XF.fin w⟩) := by
  constructor
  · apply Exists.intro
    rw [record_gen_ppl_five_two,
      group_fold_two_rows eos ctx nllOf hfin hlenN r0 r1 t0 t1 ht0 hb mv w,
      group_fold_two_rows eos ctx nllOf hfin hlenN r2 r3 t2 t3 ht2 hdl]
    simp only [Except.ok.injEq, MetricState.mk.injEq, XF.fin.injEq]
    refine ⟨rfl, ?_⟩
    push_cast
    ring
  · intro r4' t4'
    rw [record_gen_ppl_five_two, record_gen_ppl_five_two]

/-- Witness for C4 at a concrete 5-sample batch: weight grows by the four
scored rows' valid counts. -/
theorem record_gen_ppl_batches_weight_witness :
    ∃ mv' : ℚ,
      record_generative_perplexity 2 2 9
        (fun sc _ => (sc.drop 1).map (fun _ => XF.fin 1))
        [[1, 9], [2, 3], [4, 5], [6, 7], [8, 8]]
        [[1, 1], [1, 1], [1, 1], [1, 1], [1, 1]] ⟨XF.fin 0, XF.fin 0⟩ =
      Except.ok ⟨XF.fin mv',
        XF.fin (0 + ((rowValidCount 9 2 [1, 9] + rowValidCount 9 2 [2, 3] +
          rowValidCount 9 2 [4, 5] + rowValidCount 9 2 [6, 7] : ℕ) : ℚ))⟩ := by
  refine (record_gen_ppl_batches_weight 2 9
    (fun sc _ => (sc.drop 1).map (fun _ => XF.fin 1)) ?_ ?_ 0 0
    [1, 9] [2, 3] [4, 5] [6, 7] [8, 8]
    [1, 1] [1, 1] [1, 1] [1, 1] [1, 1] rfl rfl rfl rfl).1
  · intro sc ac x hx
    rcases List.mem_map.mp hx with ⟨_, _, rfl⟩
    rfl
  · intro sc ac
    simp

/-- C5 (the claim as stated is false on the code): with zero input samples
— the only way zero full groups can arise, since the group size is clamped
to `min(eval_ppl_batch_size, N) ≤ N` — the division `N // batch_size` is
`0 // 0` and raises `ZeroDivisionError` instead of leaving the accumulator
unchanged. -/
theorem record_gen_ppl_empty_raises :
    (min 2 (([] : List (List ℤ)).length) = 0) ∧
    record_generative_perplexity 2 1024 0 (fun _ _ => []) [] [] initState =
      Except.error "ZeroDivisionError" := ⟨rfl, rfl⟩

/-- C5 (amended): zero full groups can arise only when `min(batch_size, N)
= 0` (i.e. `N = 0` or a zero configured batch size), and then the call
raises a division-by-zero error rather than silently leaving the metric
unchanged; whenever `N ≥ 1` and the configured batch size is ≥ 1, at least
one full group is always formed and the call returns normally. -/
theorem record_gen_ppl_zero_groups_behavior (bs ctx : ℕ) (eos : ℤ)
    (nllOf : List ℤ → List ℤ → List XF) (samples attn : List (List ℤ))
    (s : MetricState) :
    (min bs samples.length = 0 →
      record_generative_perplexity bs ctx eos nllOf samples attn s =
        Except.error "ZeroDivisionError") ∧
    (1 ≤ bs → 1 ≤ samples.length →
      1 ≤ samples.length / min bs samples.length ∧
      ∃ s' : MetricState,
        record_generative_perplexity bs ctx eos nllOf samples attn s =
          Except.ok s') := by
  constructor
  · intro h0
    simp only [record_generative_perplexity]
    rw [if_pos h0]
  · intro h1 h2
    have hmin : 0 < min bs samples.length := by omega
    refine ⟨(Nat.one_le_div_iff hmin).mpr (min_le_right _ _), ?_⟩
    apply Exists.intro
    simp only [record_generative_perplexity]
    rw [if_neg (by omega)]

/-- Witness for C5's amended theorem: one sample with batch size 2 — at
least one full group is formed and the call succeeds. -/
theorem record_gen_ppl_zero_groups_witness :
    (1 ≤ ([[1]] : List (List ℤ)).length /
      min 2 ([[1]] : List (List ℤ)).length) ∧
    ∃ s' : MetricState,
      record_generative_perplexity 2 1024 0 (fun _ _ => []) [[1]] [[1]]
        initState = Except.ok s' :=
  (record_gen_ppl_zero_groups_behavior 2 1024 0 (fun _ _ => []) [[1]] [[1]]
    initState).2 (by norm_num) (by norm_num)
